import Mathlib

/-!
# Verification of the lnad network analysis and dismantling library

This file gives a shallow embedding of `lnad/analysis.py` and
`lnad/dismantling.py` and proves (or refutes) the frozen specification
claims about them.

Modelling conventions:

* A `Graph` is the igraph-style value the library manipulates: `n` vertices
  indexed `0 .. n-1`, an ordered edge list (endpoint indices plus the stored
  edge-weight attribute), and the vertex `name` attribute list, parallel to
  the vertex indices.  Graphs are undirected; all library entry points are
  exercised with `weight=None` (the default in every call site), so the
  unweighted semantics is the one embedded, except for the PageRank
  primitive, which keeps its weight argument because one claim is about how
  the wrapper forwards it.
* Distances are BFS hop counts (the igraph `distances` primitive on an
  unweighted graph with `mode="all"`); `none` stands for the float `inf`
  that igraph returns for unreachable pairs.
* Python expressions that can raise (`ZeroDivisionError` from `/`,
  `IndexError` from list indexing, `TypeError` from subscripting an
  integer vertex ID) are embedded as `Option`-valued computations, `none`
  meaning the Python call raises.
* Python's `sorted(..., key=itemgetter(1), reverse=True)` is a stable sort,
  descending on the score; `sortDesc` below is the stable descending
  insertion sort, which computes the same list.
-/

namespace Lnad

/-- The graph value: vertex count, ordered edge list (source index, target
index, weight attribute) and the vertex `name` attribute. -/
structure Graph where
  n : Nat
  edges : List (Nat × Nat × ℚ)
  names : List String
deriving DecidableEq, Repr, Inhabited

/-- Neighbours of `v`, in edge-insertion order (both endpoints of an
undirected edge are scanned, as igraph's adjacency does). -/
def nbors (g : Graph) (v : Nat) : List Nat :=
  g.edges.foldr
    (fun e acc =>
      if e.1 = v then e.2.1 :: acc
      else if e.2.1 = v then e.1 :: acc
      else acc) []

/-- Vertices within `k` BFS steps of `i`. -/
def ball (g : Graph) (i : Nat) : Nat → List Nat
  | 0 => [i]
  | k + 1 => ((ball g i k) ++ (ball g i k).flatMap (nbors g)).dedup

/-- BFS hop distance, the unweighted igraph `distances` primitive:
`none` models the infinite distance of an unreachable pair. -/
def dist (g : Graph) (i j : Nat) : Option Nat :=
  (List.range (g.n + 1)).find? (fun k => decide (j ∈ ball g i k))

/-! ## The stable descending sort used by every centrality function -/

/-- Insert `x` in front of the first element whose score is `≤ x`'s score:
elements with strictly larger score stay in front, elements with equal
score (which, in `sortDesc`, all come from later in the input) end up
behind `x`. -/
def insertDesc {α : Type} (x : α × ℚ) : List (α × ℚ) → List (α × ℚ)
  | [] => [x]
  | y :: ys => if y.2 ≤ x.2 then x :: y :: ys else y :: insertDesc x ys

/-- The stable descending sort modelling Python's
`sorted(items, key=itemgetter(1), reverse=True)`. -/
def sortDesc {α : Type} : List (α × ℚ) → List (α × ℚ)
  | [] => []
  | x :: xs => insertDesc x (sortDesc xs)

/-- The combined order a stably descending-sorted enumeration satisfies:
scores are non-increasing, and on a tie the original index is smaller
further to the front. -/
def RankOrder (a b : Nat × ℚ) : Prop := b.2 ≤ a.2 ∧ (a.2 = b.2 → a.1 < b.1)

/-! ## Fail-fast collection, modelling Python comprehensions that can raise -/

/-- Evaluate `f` left to right over the list, failing as soon as one
element fails — the way a Python comprehension raises at the first bad
element. -/
def traverseOption {α β : Type} (f : α → Option β) : List α → Option (List β)
  | [] => some []
  | a :: as =>
    match f a, traverseOption f as with
    | some b, some bs => some (b :: bs)
    | _, _ => none

/-- Python's true division: raises `ZeroDivisionError` (here: `none`) on a
zero denominator. -/
def pydiv (a b : ℚ) : Option ℚ := if b = 0 then none else some (a / b)

/-! ## Degree centrality (`analysis.py`, `degree_centrality`, lines 18-24) -/

/-- The igraph `degree` primitive: both endpoints of every edge are
counted, so a self-loop contributes 2. -/
def degree (g : Graph) (v : Nat) : Nat :=
  (g.edges.map (fun e =>
    (if e.1 = v then 1 else 0) + (if e.2.1 = v then 1 else 0))).sum

/-- `degree_centrality(G)`: each vertex gets `degree / (vcount() - 1)`,
computed with Python `/` (so a single-vertex graph raises
`ZeroDivisionError`), then the dict is rebuilt in stable descending score
order. -/
def degree_centrality (g : Graph) : Option (List (Nat × ℚ)) :=
  (traverseOption
      (fun v => (pydiv (degree g v : ℚ) ((g.n : ℚ) - 1)).map (fun c => (v, c)))
      (List.range g.n)).map sortDesc

/-! ## Connected components (`analysis.py`, lines 99-115) -/

def reachable (g : Graph) (u v : Nat) : Bool := (dist g u v).isSome

/-- Sizes of the connected components, one entry per component, listed by
smallest member index (the igraph `connected_components().sizes()`
primitive, weak connectivity). -/
def componentSizes (g : Graph) : List Nat :=
  (List.range g.n).filterMap (fun v =>
    if (List.range v).all (fun u => !(reachable g u v)) then
      some ((List.range g.n).countP (fun u => reachable g v u))
    else none)

/-- `largest_connected_component(G)`: the vertex count of the giant
component (`0` for the empty graph). -/
def largest_connected_component (g : Graph) : Nat :=
  (componentSizes g).foldr max 0

def insertNatDesc (x : Nat) : List Nat → List Nat
  | [] => [x]
  | y :: ys => if y ≤ x then x :: y :: ys else y :: insertNatDesc x ys

/-- Python's `sorted(sizes, reverse=True)` on the component sizes. -/
def sortNatDesc : List Nat → List Nat
  | [] => []
  | x :: xs => insertNatDesc x (sortNatDesc xs)

/-- `second_largest_connected_component(G)`: second entry of the
descending size list, `0` when there are fewer than two components. -/
def second_largest_connected_component (g : Graph) : Nat :=
  match sortNatDesc (componentSizes g) with
  | _ :: s :: _ => s
  | _ => 0

/-! ## Global efficiency (`analysis.py`, `global_efficiency`, lines 118-140) -/

/-- `global_efficiency(G)`: guard `n < 2`; otherwise, for each vertex the
distance row is computed, entries with `d == 0` or `isinf(d)` are skipped,
the inverses are accumulated and the total divided by `n*(n-1)`. -/
def global_efficiency (g : Graph) : ℚ :=
  if g.n < 2 then 0
  else
    ((List.range g.n).flatMap (fun v =>
      (List.range g.n).filterMap (fun j =>
        match dist g v j with
        | none => none
        | some 0 => none
        | some d => some (1 / (d : ℚ))))).sum / ((g.n * (g.n - 1) : ℕ) : ℚ)

/-- The efficiency formula in the specification's words: over ordered
pairs of *distinct* vertices joined by a finite path, accumulate
`1/d(i,j)`; divide by `V(V-1)`; graphs with `V < 2` have efficiency 0. -/
def global_efficiency_spec (g : Graph) : ℚ :=
  if g.n < 2 then 0
  else
    ((List.range g.n).flatMap (fun i =>
      (List.range g.n).filterMap (fun j =>
        if i = j then none
        else
          match dist g i j with
          | none => none
          | some d => some (1 / (d : ℚ))))).sum / ((g.n * (g.n - 1) : ℕ) : ℚ)

/-! ## Closeness centrality (`analysis.py`, `closeness_centrality`, lines 75-81) -/

/-- The igraph `closeness` primitive as the specification re-derives it:
the distance row of `v` is computed, the finite entries are kept, and the
score is `(R-1)/S` with `R` the number of kept entries (the vertices `v`
reaches, itself included) and `S` their sum; a vertex reaching no other
vertex gets `0` (the igraph NaN corner, fixed to `0` by the
specification). -/
def closenessScore (g : Graph) (v : Nat) : ℚ :=
  if ((List.range g.n).filterMap (fun j => (dist g v j).map (fun (d : ℕ) => (d : ℚ)))).sum = 0 then 0
  else
    ((((List.range g.n).filterMap (fun j => dist g v j)).length : ℚ) - 1) /
      ((List.range g.n).filterMap (fun j => (dist g v j).map (fun (d : ℕ) => (d : ℚ)))).sum

/-- `closeness_centrality(G)`: the closeness scores, stably sorted by
score descending. -/
def closeness_centrality (g : Graph) : List (Nat × ℚ) :=
  sortDesc ((List.range g.n).map (fun v => (v, closenessScore g v)))

/-! ## Betweenness (`analysis.py`, lines 41-72)

The raw scores come from the igraph `betweenness` / `edge_betweenness`
primitives; they are embedded through shortest-path counting (the same
quantity Brandes' algorithm accumulates). -/

/-- Walks of length exactly `k` from `s` to `t`; at `k = dist s t` this is
the number of shortest `s`–`t` paths (the `σ` of Brandes' algorithm). -/
def nwalks (g : Graph) (s : Nat) : Nat → Nat → Nat
  | 0, t => if t = s then 1 else 0
  | k + 1, t => ((nbors g t).map (fun u => nwalks g s k u)).sum

/-- Number of shortest `s`–`t` paths (0 when unreachable). -/
def sigma (g : Graph) (s t : Nat) : Nat :=
  match dist g s t with
  | none => 0
  | some d => nwalks g s d t

/-- Shortest `s`–`t` paths passing through interior vertex `v`. -/
def sigmaThrough (g : Graph) (s t v : Nat) : Nat :=
  match dist g s t, dist g s v, dist g v t with
  | some d, some d1, some d2 =>
      if d1 + d2 = d then sigma g s v * sigma g v t else 0
  | _, _, _ => 0

/-- The igraph `betweenness` primitive (unweighted, undirected): for each
vertex, the sum over unordered pairs of distinct other vertices of the
fraction of shortest paths passing through it. -/
def betweennessRaw (g : Graph) (v : Nat) : ℚ :=
  (((List.range g.n).flatMap (fun s =>
    (List.range g.n).filterMap (fun t =>
      if s = t ∨ s = v ∨ t = v then none
      else if sigma g s t = 0 then none
      else some ((sigmaThrough g s t v : ℚ) / (sigma g s t : ℚ))))).sum) / 2

/-- `betweenness_centrality(G)` for an undirected graph: the normalizer
`2 / ((vcount()-1) * (vcount()-2))` is computed first — with Python
division, so `vcount() ∈ {1, 2}` raises `ZeroDivisionError` — then every
raw score is scaled and the result stably sorted descending. -/
def betweenness_centrality (g : Graph) : Option (List (Nat × ℚ)) :=
  (pydiv 2 (((g.n : ℚ) - 1) * ((g.n : ℚ) - 2))).map (fun normalize =>
    sortDesc ((List.range g.n).map (fun v => (v, betweennessRaw g v * normalize))))

/-- Shortest `s`–`t` paths whose first traversal of the edge `{a, b}`
crosses it from `a` to `b`. -/
def sigmaThroughEdge (g : Graph) (s t a b : Nat) : Nat :=
  match dist g s t, dist g s a, dist g b t with
  | some d, some d1, some d2 =>
      if d1 + 1 + d2 = d then sigma g s a * sigma g b t else 0
  | _, _, _ => 0

/-- The igraph `edge_betweenness` primitive (unweighted, undirected). -/
def edgeBetweennessRaw (g : Graph) (e : Nat × Nat × ℚ) : ℚ :=
  (((List.range g.n).flatMap (fun s =>
    (List.range g.n).filterMap (fun t =>
      if s = t then none
      else if sigma g s t = 0 then none
      else some
        (((sigmaThroughEdge g s t e.1 e.2.1 + sigmaThroughEdge g s t e.2.1 e.1 : ℕ) : ℚ) /
          (sigma g s t : ℚ))))).sum) / 2

/-- `edge_betweenness_centrality(G)` for an undirected graph: the
normalizer `2 / (vcount() * (vcount()-1))` is computed first — raising
`ZeroDivisionError` when `vcount() ∈ {0, 1}` — then each edge (keyed by
its index) is scored and the result stably sorted descending. -/
def edge_betweenness_centrality (g : Graph) : Option (List (Nat × ℚ)) :=
  (pydiv 2 ((g.n : ℚ) * ((g.n : ℚ) - 1))).map (fun normalize =>
    sortDesc ((List.range g.edges.length).map (fun i =>
      (i, edgeBetweennessRaw g (g.edges.getD i (0, 0, 0)) * normalize))))

/-! ## Eigenvector centrality (`analysis.py`, lines 27-38) -/

/-- The igraph `eigenvector_centrality` primitive, modelled as its
documented power iteration on the adjacency operator (finitely many
rounds, sup-norm rescaling between rounds). -/
def powerIter (g : Graph) : Nat → List ℚ
  | 0 => List.replicate g.n 1
  | k + 1 =>
      let x := powerIter g k
      let y := (List.range g.n).map (fun v => ((nbors g v).map (fun u => x.getD u 0)).sum)
      let m : ℚ := y.foldr max 0
      if m = 0 then y else y.map (fun a => a / m)

/-- `eigenvector_centrality(G)`: the power-iteration scores, stably
sorted by score descending. -/
def eigenvector_centrality (g : Graph) : List (Nat × ℚ) :=
  sortDesc ((List.range g.n).map (fun v => (v, (powerIter g 16).getD v 0)))

/-! ## PageRank (`analysis.py`, lines 84-91 and 209-210) -/

def damping : ℚ := 17 / 20

/-- Weighted neighbour list: the other endpoint of each incident edge
together with the transition weight (the stored weight attribute when a
weight selector is in force, `1` otherwise). -/
def wnbors (g : Graph) (useW : Bool) (v : Nat) : List (Nat × ℚ) :=
  g.edges.foldr
    (fun e acc =>
      if e.1 = v then (e.2.1, if useW then e.2.2 else 1) :: acc
      else if e.2.1 = v then (e.1, if useW then e.2.2 else 1) :: acc
      else acc) []

def wdegQ (g : Graph) (useW : Bool) (v : Nat) : ℚ :=
  ((wnbors g useW v).map Prod.snd).sum

/-- One PageRank power-iteration round: damping 0.85, uniform
teleportation, dangling mass spread uniformly. -/
def prStep (g : Graph) (useW : Bool) (x : List ℚ) : List ℚ :=
  let n : ℚ := (g.n : ℚ)
  let dangling : ℚ :=
    ((List.range g.n).map (fun u => if wdegQ g useW u = 0 then x.getD u 0 else 0)).sum
  (List.range g.n).map (fun v =>
    (1 - damping) / n +
      damping * (dangling / n +
        ((wnbors g useW v).map (fun p => x.getD p.1 0 * p.2 / wdegQ g useW p.1)).sum))

/-- The igraph `pagerank` primitive, modelled as the documented damped
power iteration; the weight selector changes the transition weights. -/
def pagerankScores (g : Graph) (useW : Bool) : List ℚ :=
  Nat.iterate (prStep g useW) 12 (List.replicate g.n ((g.n : ℚ))⁻¹)

/-- Module-level `pagerank(G, weight)`: the primitive's scores, stably
sorted by score descending. -/
def pagerank (g : Graph) (weight : Option Unit) : List (Nat × ℚ) :=
  sortDesc ((List.range g.n).map (fun v => (v, (pagerankScores g weight.isSome).getD v 0)))

/-- `NetworkAnalysis.pagerank(self, weight=None)` (`analysis.py` line
209-210): the body invokes the module-level `pagerank` with
`weight=None`, whatever `weight` the caller passed. -/
def NetworkAnalysis.pagerank (g : Graph) (weight : Option Unit) : List (Nat × ℚ) :=
  Lnad.pagerank g none

/-! ## Graph surgery: the igraph `delete_vertices` / `delete_edges` primitives -/

/-- `delete_vertices(v)`: drop the vertex, its incident edges and its
name, and renumber every larger index down by one.  An out-of-range index
makes igraph raise (`none`). -/
def deleteVertex (g : Graph) (v : Nat) : Option Graph :=
  if v < g.n then
    some
      { n := g.n - 1
        edges :=
          (g.edges.filter (fun e => e.1 != v && e.2.1 != v)).map
            (fun e =>
              ((if v < e.1 then e.1 - 1 else e.1),
               (if v < e.2.1 then e.2.1 - 1 else e.2.1), e.2.2))
        names := g.names.eraseIdx v }
  else none

/-- `delete_edges(e)` for the edge at list index `i`. -/
def deleteEdge (g : Graph) (i : Nat) : Option Graph :=
  if i < g.edges.length then
    some { g with edges := g.edges.eraseIdx i }
  else none

/-! ## Articulation points (`analysis.py`, `articulation_points`, lines 94-96) -/

/-- Stack-based DFS preorder: pop, skip if visited, otherwise record and
push the neighbours in adjacency order.  `fuel` only bounds the
recursion; the callers below always supply enough. -/
def dfsStack (g : Graph) : Nat → List Nat → List Nat → List Nat
  | 0, _, visited => visited
  | _ + 1, [], visited => visited
  | f + 1, v :: stack, visited =>
      if v ∈ visited then dfsStack g f stack visited
      else dfsStack g f (nbors g v ++ stack) (visited ++ [v])

/-- DFS discovery order over the whole graph, roots tried in index
order. -/
def dfsOrder (g : Graph) : List Nat :=
  (List.range g.n).foldl
    (fun visited r => dfsStack g (2 * g.edges.length + g.n + 2) [r] visited) []

def numComponents (g : Graph) : Nat := (componentSizes g).length

/-- The igraph `articulation_points` primitive: the vertices whose
removal increases the number of connected components, in DFS discovery
order (the order the specification prescribes for it). -/
def articulation_points (g : Graph) : List Nat :=
  (dfsOrder g).filter (fun v =>
    match deleteVertex g v with
    | some g2 => decide (numComponents g < numComponents g2)
    | none => false)

/-! ## The dismantling simulator (`dismantling.py`) -/

/-- The budget clamp at the top of every attack method: budgets below 1
are raised to 1, then the result is capped at the count of removable
elements (in this order, as in the Python). -/
def clampBudget (count : Nat) (nattacks : ℤ) : Nat :=
  (if (if nattacks < 1 then 1 else nattacks) > (count : ℤ) then (count : ℤ)
   else if nattacks < 1 then 1 else nattacks).toNat

/-- The output record of one attack run: final graph, removed-element
identifiers, and the three metric series (plus the per-step centrality
scores for the targeted variants). -/
structure AttackTrace (ρ : Type) where
  graph : Graph
  removed : List ρ
  lcc : List Nat
  slcc : List Nat
  eff : List ℚ
  cent : List ℚ
deriving Repr, DecidableEq

/-- The common loop of all five attack methods: at iteration `t`, `step`
picks and removes a victim (failing exactly when the Python body would
raise), then the three metrics of the mutated graph are appended. -/
def attackLoop {ρ : Type} (step : Nat → Graph → Option (Graph × ρ × ℚ)) :
    Nat → Nat → Graph → Option (AttackTrace ρ)
  | 0, _, g => some ⟨g, [], [], [], [], []⟩
  | k + 1, t, g =>
      match step t g with
      | none => none
      | some (g2, r, s) =>
          match attackLoop step k (t + 1) g2 with
          | none => none
          | some tr =>
              some ⟨tr.graph, r :: tr.removed,
                largest_connected_component g2 :: tr.lcc,
                second_largest_connected_component g2 :: tr.slcc,
                global_efficiency g2 :: tr.eff,
                s :: tr.cent⟩

/-- The loop body of `node_iterative_centrality_attack`: rank the current
graph, take the *first* element of the ranking, record its name, delete
the vertex. -/
def nodeStep (method : Graph → Option (List (Nat × ℚ))) (_ : Nat) (g' : Graph) :
    Option (Graph × String × ℚ) := do
  let bc ← method g'
  let vs ← bc.head?
  let nm ← g'.names.get? vs.1
  let g2 ← deleteVertex g' vs.1
  return (g2, nm, vs.2)

/-- `node_iterative_centrality_attack` (`dismantling.py` lines 62-99),
parametric in `centrality_method` exactly as the Python method is; the
pre-attack baseline is prepended to the three metric series. -/
def node_iterative_centrality_attack (g : Graph) (nattacks : ℤ)
    (method : Graph → Option (List (Nat × ℚ))) : Option (AttackTrace String) :=
  (attackLoop (nodeStep method) (clampBudget g.n nattacks) 0 g).map
    (fun tr =>
      ⟨tr.graph, tr.removed,
        largest_connected_component g :: tr.lcc,
        second_largest_connected_component g :: tr.slcc,
        global_efficiency g :: tr.eff,
        tr.cent⟩)

/-- The loop body of `edge_iterative_centrality_attack`: rank the edges
of the current graph, take the first edge of the ranking, record the
names of its endpoints, delete the edge. -/
def edgeStep (method : Graph → Option (List (Nat × ℚ))) (_ : Nat) (g' : Graph) :
    Option (Graph × (String × String) × ℚ) := do
  let bc ← method g'
  let is ← bc.head?
  let e ← g'.edges.get? is.1
  let nm1 ← g'.names.get? e.1
  let nm2 ← g'.names.get? e.2.1
  let g2 ← deleteEdge g' is.1
  return (g2, (nm1, nm2), is.2)

/-- `edge_iterative_centrality_attack` (`dismantling.py` lines 101-144):
like the node variant but clamped by `ecount()`; the recorded identifier
is the pair of endpoint names of the removed edge. -/
def edge_iterative_centrality_attack (g : Graph) (nattacks : ℤ)
    (method : Graph → Option (List (Nat × ℚ))) :
    Option (AttackTrace (String × String)) :=
  (attackLoop (edgeStep method) (clampBudget g.edges.length nattacks) 0 g).map
    (fun tr =>
      ⟨tr.graph, tr.removed,
        largest_connected_component g :: tr.lcc,
        second_largest_connected_component g :: tr.slcc,
        global_efficiency g :: tr.eff,
        tr.cent⟩)

/-- `ap[i]["name"]` in the source, where `ap[i]` is one of the plain
integer vertex IDs that igraph's `articulation_points()` returns:
subscripting an `int` with a string raises `TypeError` unconditionally
(`none`), whatever the ID is. -/
def intSubscriptName (_v : Nat) : Option String := none

/-- The loop body of `articulation_point_targeted_attack` at iteration
`i`: evaluate `ap[i]` — an `IndexError` (`none`) when `i` is past the end
of the articulation-point list — then `ap[i]["name"]`, which raises
`TypeError` because `ap[i]` is a plain integer vertex ID; the deletion
and recording below it are never reached. -/
def apStep (ap : List Nat) (i : Nat) (g' : Graph) : Option (Graph × String × ℚ) := do
  let v ← ap.get? i
  let nm ← intSubscriptName v
  let g2 ← deleteVertex g' v
  return (g2, nm, 0)

/-- `articulation_point_targeted_attack` (`dismantling.py` lines 146-177):
the articulation points are computed *once*, on the initial graph, as a
list of integer vertex IDs; the budget is clamped by `vcount()` (not by
the number of articulation points), the baselines are recorded, and the
loop then raises at its first iteration (see `apStep`). -/
def articulation_point_targeted_attack (g : Graph) (nattacks : ℤ) :
    Option (AttackTrace String) :=
  (attackLoop (apStep (articulation_points g)) (clampBudget g.n nattacks) 0 g).map
    (fun tr =>
      ⟨tr.graph, tr.removed,
        largest_connected_component g :: tr.lcc,
        second_largest_connected_component g :: tr.slcc,
        global_efficiency g :: tr.eff,
        []⟩)

/-- The loop body of `random_attack`: the random source is modelled as a
caller-supplied stream of draws; the draw for step `t` is reduced modulo
the current vertex count, since `rd.sample` always returns one of the
remaining vertices (and raises on an empty population, as `% 0` leaves an
out-of-range index here). -/
def randStep (picks : Nat → Nat) (t : Nat) (g' : Graph) : Option (Graph × String × ℚ) := do
  let nm ← g'.names.get? (picks t % g'.n)
  let g2 ← deleteVertex g' (picks t % g'.n)
  return (g2, nm, 0)

/-- `random_attack` (`dismantling.py` lines 179-206). -/
def random_attack (g : Graph) (nattacks : ℤ) (picks : Nat → Nat) :
    Option (AttackTrace String) :=
  (attackLoop (randStep picks) (clampBudget g.n nattacks) 0 g).map
    (fun tr =>
      ⟨tr.graph, tr.removed,
        largest_connected_component g :: tr.lcc,
        second_largest_connected_component g :: tr.slcc,
        global_efficiency g :: tr.eff,
        []⟩)

/-- The loop body of `edge_random_attack`: one remaining edge is drawn,
its endpoint names recorded, and the edge deleted. -/
def edgeRandStep (picks : Nat → Nat) (t : Nat) (g' : Graph) :
    Option (Graph × (String × String) × ℚ) := do
  let e ← g'.edges.get? (picks t % g'.edges.length)
  let nm1 ← g'.names.get? e.1
  let nm2 ← g'.names.get? e.2.1
  let g2 ← deleteEdge g' (picks t % g'.edges.length)
  return (g2, (nm1, nm2), 0)

/-- `edge_random_attack` (`dismantling.py` lines 208-240). -/
def edge_random_attack (g : Graph) (nattacks : ℤ) (picks : Nat → Nat) :
    Option (AttackTrace (String × String)) :=
  (attackLoop (edgeRandStep picks) (clampBudget g.edges.length nattacks) 0 g).map
    (fun tr =>
      ⟨tr.graph, tr.removed,
        largest_connected_component g :: tr.lcc,
        second_largest_connected_component g :: tr.slcc,
        global_efficiency g :: tr.eff,
        []⟩)

/-! ## Spec-side formulation of the closeness formula -/

/-- The closeness formula in the claim's words: `R` is the number of
vertices reachable from `v`, the denominator sums the finite
shortest-path distances from `v` (unreachable vertices contribute
nothing), and a vertex that reaches no other vertex scores `0`. -/
def closenessSpecScore (g : Graph) (v : Nat) : ℚ :=
  if ∀ u ∈ List.range g.n, u ≠ v → dist g v u = none then 0
  else
    ((((List.range g.n).filter (fun u => reachable g v u)).length : ℚ) - 1) /
      ((List.range g.n).map (fun u =>
        match dist g v u with
        | some d => (d : ℚ)
        | none => 0)).sum

/-! ## A heap model for the aliasing claim

Python object references are modelled as indices into a store of graph
values; `NetworkDismantling.get_graph` deep-copies `self.graph` into a
fresh cell, and each attack method's loop then mutates only that cell.
The per-iteration mutation of the working graph (victim selection plus
deletion) is the `step` parameter, which covers each of the five attack
methods. -/

/-- `get_graph` / `copy.deepcopy(self.graph)`: allocate a fresh cell
holding a copy of the graph in cell `r`, and return its reference. -/
def copyRef (s : List Graph) (r : Nat) : List Graph × Nat :=
  (s ++ [s.getD r default], s.length)

/-- Run `k` in-place mutation steps on the graph in cell `r`. -/
def mutateLoop (step : Nat → Graph → Graph) : Nat → Nat → List Graph → Nat → List Graph
  | 0, _, s, _ => s
  | k + 1, t, s, r => mutateLoop step k (t + 1) (s.set r (step t (s.getD r default))) r

/-- One attack run against the heap: deep-copy `self.graph` (cell `r`),
then mutate the private copy for `k` iterations; returns the heap and the
working cell's reference. -/
def runAttackOnHeap (step : Nat → Graph → Graph) (k : Nat) (s : List Graph) (r : Nat) :
    List Graph × Nat :=
  (mutateLoop step k 0 (copyRef s r).1 (copyRef s r).2, (copyRef s r).2)

/-- The pure value the working copy holds after `i` of the `k` steps. -/
def stepFold (step : Nat → Graph → Graph) : Nat → Nat → Graph → Graph
  | 0, _, g => g
  | k + 1, t, g => stepFold step k (t + 1) (step t g)

/-! ## Concrete instances used by witnesses and counterexamples -/

def emptyGraph : Graph := ⟨0, [], []⟩

def oneVertexGraph : Graph := ⟨1, [], ["a"]⟩

def twoVertexGraph : Graph := ⟨2, [(0, 1, 1)], ["a", "b"]⟩

/-- Two vertices, no edges: each vertex reaches no other vertex. -/
def isolatedGraph : Graph := ⟨2, [], ["a", "b"]⟩

def pathGraph3 : Graph := ⟨3, [(0, 1, 1), (1, 2, 1)], ["0", "1", "2"]⟩

def pathGraph4 : Graph := ⟨4, [(0, 1, 1), (1, 2, 1), (2, 3, 1)], ["0", "1", "2", "3"]⟩

def starGraph : Graph :=
  ⟨5, [(0, 1, 1), (0, 2, 1), (0, 3, 1), (0, 4, 1)], ["c", "a", "b", "d", "e"]⟩

/-- A path with strongly skewed edge weights, separating the weighted and
unweighted PageRank rankings. -/
def skewGraph : Graph := ⟨3, [(0, 1, 1), (1, 2, 9)], ["a", "b", "c"]⟩

/-- A caller-supplied centrality method (the Python parameter accepts any
callable): every vertex of the current graph with score 0. -/
def constMethod (g : Graph) : Option (List (Nat × ℚ)) :=
  some ((List.range g.n).map (fun v => (v, 0)))

/-- A caller-supplied edge-centrality method: every edge index of the
current graph with score 0. -/
def constEdgeMethod (g : Graph) : Option (List (Nat × ℚ)) :=
  some ((List.range g.edges.length).map (fun i => (i, 0)))

/-! ## Helper lemmas -/

theorem dist_self (g : Graph) (i : Nat) : dist g i i = some 0 := by
  unfold dist
  rw [List.range_succ_eq_map]
  simp [List.find?_cons, ball]

theorem dist_ne_zero_of_ne (g : Graph) {i j : Nat} (h : i ≠ j) :
    dist g i j ≠ some 0 := by
  intro hd
  have hp := List.find?_some hd
  have : j ∈ ball g i 0 := of_decide_eq_true hp
  simp [ball] at this
  exact h this.symm

theorem insertDesc_perm {α : Type} (x : α × ℚ) (l : List (α × ℚ)) :
    List.Perm (insertDesc x l) (x :: l) := by
  induction l with
  | nil => rfl
  | cons y ys ih =>
      by_cases h : y.2 ≤ x.2
      · simp [insertDesc, h]
      · simp only [insertDesc, if_neg h]
        exact (ih.cons y).trans (List.Perm.swap x y ys)

theorem sortDesc_perm {α : Type} (l : List (α × ℚ)) :
    List.Perm (sortDesc l) l := by
  induction l with
  | nil => rfl
  | cons x xs ih => exact (insertDesc_perm x (sortDesc xs)).trans (ih.cons x)

theorem mem_sortDesc {α : Type} {l : List (α × ℚ)} {z : α × ℚ} :
    z ∈ sortDesc l ↔ z ∈ l :=
  (sortDesc_perm l).mem_iff

theorem insertDesc_pairwise {x : Nat × ℚ} {l : List (Nat × ℚ)}
    (hl : l.Pairwise RankOrder) (hx : ∀ y ∈ l, x.2 = y.2 → x.1 < y.1) :
    (insertDesc x l).Pairwise RankOrder := by
  induction l with
  | nil => simp [insertDesc, List.pairwise_singleton]
  | cons y ys ih =>
      rcases List.pairwise_cons.mp hl with ⟨hy, hys⟩
      by_cases h : y.2 ≤ x.2
      · simp only [insertDesc, if_pos h]
        refine List.pairwise_cons.mpr ⟨?_, hl⟩
        intro z hz
        rcases List.mem_cons.mp hz with rfl | hz'
        · exact ⟨h, hx z (by simp)⟩
        · exact ⟨le_trans (hy z hz').1 h, hx z (by simp [hz'])⟩
      · push_neg at h
        simp only [insertDesc, if_neg (not_le.mpr h)]
        refine List.pairwise_cons.mpr ⟨?_, ih hys (fun z hz => hx z (by simp [hz]))⟩
        intro z hz
        have hz' : z = x ∨ z ∈ ys := by
          have := (insertDesc_perm x ys).mem_iff.mp hz
          simpa using this
        rcases hz' with rfl | hz'
        · exact ⟨le_of_lt h, fun he => absurd he (ne_of_lt h).symm⟩
        · exact hy z hz'

theorem sortDesc_pairwise {l : List (Nat × ℚ)}
    (hl : l.Pairwise (fun a b => a.1 < b.1)) :
    (sortDesc l).Pairwise RankOrder := by
  induction l with
  | nil => exact List.Pairwise.nil
  | cons x xs ih =>
      rcases List.pairwise_cons.mp hl with ⟨hx, hxs⟩
      refine insertDesc_pairwise (ih hxs) ?_
      intro y hy _
      exact hx y (mem_sortDesc.mp hy)

/-- A stably sorted enumeration of scores is ordered by `RankOrder`. -/
theorem sortDesc_enum_pairwise (n : Nat) (f : Nat → ℚ) :
    (sortDesc ((List.range n).map (fun v => (v, f v)))).Pairwise RankOrder := by
  refine sortDesc_pairwise ?_
  refine List.Pairwise.map _ (fun a b h => h) ?_
  exact List.pairwise_lt_range n

theorem traverseOption_eq_map {α β : Type} (f : α → Option β) (gg : α → β) :
    ∀ l : List α, (∀ a ∈ l, f a = some (gg a)) →
      traverseOption f l = some (l.map gg) := by
  intro l
  induction l with
  | nil => intro _; rfl
  | cons a as ih =>
      intro h
      have ha := h a (by simp)
      have has := ih (fun b hb => h b (by simp [hb]))
      simp [traverseOption, ha, has]

theorem traverseOption_none {α β : Type} (f : α → Option β) {a : α} :
    ∀ {l : List α}, a ∈ l → f a = none → traverseOption f l = none := by
  intro l
  induction l with
  | nil => intro h; simp at h
  | cons b bs ih =>
      intro hmem hfa
      rcases List.mem_cons.mp hmem with rfl | hmem'
      · simp [traverseOption, hfa]
      · cases hfb : f b <;> simp [traverseOption, hfb, ih hmem' hfa]

theorem list_sum_nonneg_eq_zero {l : List ℚ} (h : ∀ x ∈ l, 0 ≤ x) :
    l.sum = 0 ↔ ∀ x ∈ l, x = 0 := by
  induction l with
  | nil => simp
  | cons a as ih =>
      have ha := h a (by simp)
      have has : ∀ x ∈ as, 0 ≤ x := fun x hx => h x (by simp [hx])
      have hs : 0 ≤ as.sum := List.sum_nonneg has
      rw [List.sum_cons]
      constructor
      · intro h0
        have := (add_eq_zero_iff_of_nonneg ha hs).mp h0
        intro x hx
        rcases List.mem_cons.mp hx with rfl | hx'
        · exact this.1
        · exact (ih has).mp this.2 x hx'
      · intro h0
        rw [h0 a (by simp), (ih has).mpr (fun x hx => h0 x (by simp [hx]))]
        simp

theorem closeness_sum_eq (g : Graph) (v : Nat) :
    ∀ l : List Nat,
      (l.filterMap (fun j => (dist g v j).map (fun (d : ℕ) => (d : ℚ)))).sum
        = (l.map (fun u =>
            match dist g v u with
            | some d => (d : ℚ)
            | none => 0)).sum := by
  intro l
  induction l with
  | nil => rfl
  | cons a as ih =>
      cases h : dist g v a with
      | none =>
          simp only [List.filterMap_cons, h, Option.map_none', List.map_cons, List.sum_cons,
            ih, zero_add]
      | some d =>
          simp only [List.filterMap_cons, h, Option.map_some', List.map_cons, List.sum_cons, ih]

theorem closeness_len_eq (g : Graph) (v : Nat) :
    ∀ l : List Nat,
      (l.filterMap (fun j => dist g v j)).length
        = (l.filter (fun u => reachable g v u)).length := by
  intro l
  induction l with
  | nil => rfl
  | cons a as ih => cases h : dist g v a <;> simp [h, ih, reachable, List.filterMap_cons]

theorem closeness_sum_zero_iff (g : Graph) (v : Nat) :
    ((List.range g.n).filterMap (fun j => (dist g v j).map (fun (d : ℕ) => (d : ℚ)))).sum = 0
      ↔ ∀ u ∈ List.range g.n, u ≠ v → dist g v u = none := by
  rw [list_sum_nonneg_eq_zero (by
    intro x hx
    rcases List.mem_filterMap.mp hx with ⟨u, hu, hmap⟩
    cases hd : dist g v u with
    | none => rw [hd] at hmap; cases hmap
    | some d =>
        rw [hd] at hmap
        simp only [Option.map_some', Option.some_inj] at hmap
        rw [← hmap]
        exact Nat.cast_nonneg d)]
  constructor
  · intro h u hu hne
    cases hd : dist g v u with
    | none => rfl
    | some d =>
        have hmem : ((d : ℚ)) ∈ (List.range g.n).filterMap
            (fun j => (dist g v j).map (fun (d : ℕ) => (d : ℚ))) :=
          List.mem_filterMap.mpr ⟨u, hu, by rw [hd]; rfl⟩
        have hd0 : d = 0 := by exact_mod_cast h _ hmem
        subst hd0
        exact absurd hd (dist_ne_zero_of_ne g hne.symm)
  · intro h x hx
    rcases List.mem_filterMap.mp hx with ⟨u, hu, hmap⟩
    rcases eq_or_ne u v with rfl | hne
    · rw [dist_self] at hmap
      simp only [Option.map_some', Option.some_inj] at hmap
      rw [← hmap]
      norm_num
    · rw [h u hu hne] at hmap
      cases hmap

theorem closenessScore_eq_spec (g : Graph) (v : Nat) :
    closenessScore g v = closenessSpecScore g v := by
  unfold closenessScore closenessSpecScore
  by_cases hc : ∀ u ∈ List.range g.n, u ≠ v → dist g v u = none
  · rw [if_pos ((closeness_sum_zero_iff g v).mpr hc), if_pos hc]
  · rw [if_neg (fun h0 => hc ((closeness_sum_zero_iff g v).mp h0)), if_neg hc,
      closeness_sum_eq g v (List.range g.n), closeness_len_eq g v (List.range g.n)]

theorem clampBudget_one {count : Nat} (h : 0 < count) : clampBudget count 1 = 1 := by
  unfold clampBudget
  split_ifs <;> omega

theorem clampBudget_bounds (count : Nat) (n : ℤ) (h : 0 < count) :
    1 ≤ clampBudget count n ∧ clampBudget count n ≤ count := by
  unfold clampBudget
  split_ifs <;> constructor <;> omega

theorem mutateLoop_frame (step : Nat → Graph → Graph) :
    ∀ (k t : Nat) (s : List Graph) (r j : Nat), j ≠ r →
      (mutateLoop step k t s r).getD j default = s.getD j default := by
  intro k
  induction k with
  | zero => intro t s r j _; rfl
  | succ k ih =>
      intro t s r j h
      rw [mutateLoop, ih (t + 1) _ r j h, List.getD_eq_getElem?_getD,
        List.getElem?_set_ne (Ne.symm h), ← List.getD_eq_getElem?_getD]

theorem mutateLoop_run (step : Nat → Graph → Graph) :
    ∀ (k t : Nat) (s : List Graph) (r : Nat), r < s.length →
      (mutateLoop step k t s r).getD r default = stepFold step k t (s.getD r default) := by
  intro k
  induction k with
  | zero => intro t s r _; rfl
  | succ k ih =>
      intro t s r h
      rw [mutateLoop, stepFold, ih (t + 1) _ r (by rw [List.length_set]; exact h)]
      congr 1
      rw [List.getD_eq_getElem?_getD, List.getElem?_set_self h]
      rfl

theorem degree_centrality_eq {g : Graph} (h : g.n ≠ 1) :
    degree_centrality g = some (sortDesc ((List.range g.n).map
      (fun v => (v, (degree g v : ℚ) / ((g.n : ℚ) - 1))))) := by
  have hden : ((g.n : ℚ) - 1) ≠ 0 := fun hz => h (Nat.cast_eq_one.mp (sub_eq_zero.mp hz))
  unfold degree_centrality
  rw [traverseOption_eq_map
    (fun v : ℕ => (pydiv (degree g v : ℚ) ((g.n : ℚ) - 1)).map (fun c => (v, c)))
    (fun v : ℕ => (v, (degree g v : ℚ) / ((g.n : ℚ) - 1)))
    (List.range g.n)
    (by intro a _; simp [pydiv, hden])]
  rfl

theorem betweenness_centrality_eq_some {g : Graph} {out : List (Nat × ℚ)}
    (h : betweenness_centrality g = some out) :
    ∃ c : ℚ, out = sortDesc ((List.range g.n).map
      (fun v => (v, betweennessRaw g v * c))) := by
  unfold betweenness_centrality at h
  cases hp : pydiv 2 (((g.n : ℚ) - 1) * ((g.n : ℚ) - 2)) with
  | none => rw [hp] at h; cases h
  | some c =>
      rw [hp] at h
      exact ⟨c, by simpa using h.symm⟩

theorem edge_betweenness_centrality_eq_some {g : Graph} {out : List (Nat × ℚ)}
    (h : edge_betweenness_centrality g = some out) :
    ∃ c : ℚ, out = sortDesc ((List.range g.edges.length).map
      (fun i => (i, edgeBetweennessRaw g (g.edges.getD i (0, 0, 0)) * c))) := by
  unfold edge_betweenness_centrality at h
  cases hp : pydiv 2 ((g.n : ℚ) * ((g.n : ℚ) - 1)) with
  | none => rw [hp] at h; cases h
  | some c =>
      rw [hp] at h
      exact ⟨c, by simpa using h.symm⟩

theorem deleteVertex_some {g : Graph} {v : Nat} (hv : v < g.n)
    (hnames : g.names.length = g.n) :
    ∃ g2, deleteVertex g v = some g2 ∧ g2.n = g.n - 1 ∧ g2.names.length = g2.n := by
  unfold deleteVertex
  rw [if_pos hv]
  refine ⟨_, rfl, rfl, ?_⟩
  show (g.names.eraseIdx v).length = g.n - 1
  rw [List.length_eraseIdx_of_lt (by rw [hnames]; exact hv), hnames]

theorem deleteEdge_some {g : Graph} {i : Nat} (hi : i < g.edges.length) :
    ∃ g2, deleteEdge g i = some g2 ∧ g2.n = g.n ∧ g2.names = g.names ∧
      g2.edges.length = g.edges.length - 1 ∧ ∀ e ∈ g2.edges, e ∈ g.edges := by
  unfold deleteEdge
  rw [if_pos hi]
  refine ⟨_, rfl, rfl, rfl, ?_, ?_⟩
  · exact List.length_eraseIdx_of_lt hi
  · intro e he
    exact List.mem_of_mem_eraseIdx he

theorem nodeStep_total (method : Graph → Option (List (Nat × ℚ)))
    (hm : ∀ g', 0 < g'.n →
      ∃ bc v s, method g' = some bc ∧ bc.head? = some (v, s) ∧ v < g'.n)
    (t : Nat) (g : Graph) (hI : g.names.length = g.n) (hn : 0 < g.n) :
    ∃ g2 r s, nodeStep method t g = some (g2, r, s) ∧ g2.n = g.n - 1 ∧
      g2.names.length = g2.n := by
  obtain ⟨bc, v, s, hbc, hh, hv⟩ := hm g hn
  have hvn : v < g.names.length := by rw [hI]; exact hv
  obtain ⟨nm, hnm⟩ : ∃ nm, g.names[v]? = some nm := ⟨_, List.getElem?_eq_getElem hvn⟩
  obtain ⟨g2, hdel, hgn, hgnames⟩ := deleteVertex_some hv hI
  refine ⟨g2, nm, s, ?_, hgn, hgnames⟩
  simp [nodeStep, hbc, hh, hnm, hdel]

theorem randStep_total (picks : Nat → Nat) (t : Nat) (g : Graph)
    (hI : g.names.length = g.n) (hn : 0 < g.n) :
    ∃ g2 r s, randStep picks t g = some (g2, r, s) ∧ g2.n = g.n - 1 ∧
      g2.names.length = g2.n := by
  have hv : picks t % g.n < g.n := Nat.mod_lt _ hn
  have hvn : picks t % g.n < g.names.length := by rw [hI]; exact hv
  obtain ⟨nm, hnm⟩ : ∃ nm, g.names[picks t % g.n]? = some nm :=
    ⟨_, List.getElem?_eq_getElem hvn⟩
  obtain ⟨g2, hdel, hgn, hgnames⟩ := deleteVertex_some hv hI
  refine ⟨g2, nm, 0, ?_, hgn, hgnames⟩
  simp [randStep, hnm, hdel]

theorem edgeStep_total (method : Graph → Option (List (Nat × ℚ)))
    (hm : ∀ g', 0 < g'.edges.length →
      ∃ bc i s, method g' = some bc ∧ bc.head? = some (i, s) ∧ i < g'.edges.length)
    (t : Nat) (g : Graph)
    (hI : g.names.length = g.n ∧ ∀ e ∈ g.edges, e.1 < g.n ∧ e.2.1 < g.n)
    (hn : 0 < g.edges.length) :
    ∃ g2 r s, edgeStep method t g = some (g2, r, s) ∧
      g2.edges.length = g.edges.length - 1 ∧
      (g2.names.length = g2.n ∧ ∀ e ∈ g2.edges, e.1 < g2.n ∧ e.2.1 < g2.n) := by
  obtain ⟨bc, i, s, hbc, hh, hi⟩ := hm g hn
  obtain ⟨e, he⟩ : ∃ e, g.edges[i]? = some e := ⟨_, List.getElem?_eq_getElem hi⟩
  obtain ⟨hv1, hv2⟩ := hI.2 e (List.getElem?_mem he)
  obtain ⟨nm1, hnm1⟩ : ∃ x, g.names[e.1]? = some x :=
    ⟨_, List.getElem?_eq_getElem (by rw [hI.1]; exact hv1)⟩
  obtain ⟨nm2, hnm2⟩ : ∃ x, g.names[e.2.1]? = some x :=
    ⟨_, List.getElem?_eq_getElem (by rw [hI.1]; exact hv2)⟩
  obtain ⟨g2, hdel, hgn, hgnames, hglen, hsub⟩ := deleteEdge_some hi
  refine ⟨g2, (nm1, nm2), s, ?_, hglen, ?_, ?_⟩
  · simp [edgeStep, hbc, hh, he, hnm1, hnm2, hdel]
  · rw [hgnames, hgn]
    exact hI.1
  · intro e' he'
    rw [hgn]
    exact hI.2 e' (hsub e' he')

theorem edgeRandStep_total (picks : Nat → Nat) (t : Nat) (g : Graph)
    (hI : g.names.length = g.n ∧ ∀ e ∈ g.edges, e.1 < g.n ∧ e.2.1 < g.n)
    (hn : 0 < g.edges.length) :
    ∃ g2 r s, edgeRandStep picks t g = some (g2, r, s) ∧
      g2.edges.length = g.edges.length - 1 ∧
      (g2.names.length = g2.n ∧ ∀ e ∈ g2.edges, e.1 < g2.n ∧ e.2.1 < g2.n) := by
  have hi : picks t % g.edges.length < g.edges.length := Nat.mod_lt _ hn
  obtain ⟨e, he⟩ : ∃ e, g.edges[picks t % g.edges.length]? = some e :=
    ⟨_, List.getElem?_eq_getElem hi⟩
  obtain ⟨hv1, hv2⟩ := hI.2 e (List.getElem?_mem he)
  obtain ⟨nm1, hnm1⟩ : ∃ x, g.names[e.1]? = some x :=
    ⟨_, List.getElem?_eq_getElem (by rw [hI.1]; exact hv1)⟩
  obtain ⟨nm2, hnm2⟩ : ∃ x, g.names[e.2.1]? = some x :=
    ⟨_, List.getElem?_eq_getElem (by rw [hI.1]; exact hv2)⟩
  obtain ⟨g2, hdel, hgn, hgnames, hglen, hsub⟩ := deleteEdge_some hi
  refine ⟨g2, (nm1, nm2), 0, ?_, hglen, ?_, ?_⟩
  · simp [edgeRandStep, he, hnm1, hnm2, hdel]
  · rw [hgnames, hgn]
    exact hI.1
  · intro e' he'
    rw [hgn]
    exact hI.2 e' (hsub e' he')

/-- Totality and bookkeeping of the common attack loop: if every step
succeeds on a graph with positive measure, removing one element, then `k`
iterations (for `k` within the measure) succeed and produce series of
length exactly `k`, removing exactly `k` elements. -/
theorem attackLoop_total {ρ : Type} (step : Nat → Graph → Option (Graph × ρ × ℚ))
    (μ : Graph → Nat) (Inv : Graph → Prop)
    (hstep : ∀ t g, Inv g → 0 < μ g →
      ∃ g2 r s, step t g = some (g2, r, s) ∧ μ g2 = μ g - 1 ∧ Inv g2) :
    ∀ (k t : Nat) (g : Graph), Inv g → k ≤ μ g →
      ∃ tr, attackLoop step k t g = some tr ∧
        tr.removed.length = k ∧ tr.lcc.length = k ∧ tr.slcc.length = k ∧
        tr.eff.length = k ∧ tr.cent.length = k ∧ μ tr.graph = μ g - k ∧ Inv tr.graph := by
  intro k
  induction k with
  | zero =>
      intro t g hI _
      exact ⟨⟨g, [], [], [], [], []⟩, rfl, rfl, rfl, rfl, rfl, rfl,
        (Nat.sub_zero (μ g)).symm, hI⟩
  | succ k ih =>
      intro t g hI hk
      obtain ⟨g2, r, s, hs, hμ, hI2⟩ := hstep t g hI (by omega)
      obtain ⟨tr, htr, h1, h2, h3, h4, h5, h6, h7⟩ := ih (t + 1) g2 hI2 (by omega)
      refine ⟨⟨tr.graph, r :: tr.removed,
          largest_connected_component g2 :: tr.lcc,
          second_largest_connected_component g2 :: tr.slcc,
          global_efficiency g2 :: tr.eff, s :: tr.cent⟩, ?_, ?_, ?_, ?_, ?_, ?_, ?_, h7⟩
      · simp only [attackLoop, hs, htr]
      · simpa using h1
      · simpa using h2
      · simpa using h3
      · simpa using h4
      · simpa using h5
      · show μ tr.graph = μ g - (k + 1)
        omega

theorem constMethod_head (g' : Graph) (hn : 0 < g'.n) :
    ∃ bc v s, constMethod g' = some bc ∧ bc.head? = some (v, s) ∧ v < g'.n := by
  refine ⟨_, 0, 0, rfl, ?_, hn⟩
  cases hgn : g'.n with
  | zero => omega
  | succ m => rw [List.range_succ_eq_map]; rfl

theorem constEdgeMethod_head (g' : Graph) (hn : 0 < g'.edges.length) :
    ∃ bc i s, constEdgeMethod g' = some bc ∧ bc.head? = some (i, s) ∧
      i < g'.edges.length := by
  refine ⟨_, 0, 0, rfl, ?_, hn⟩
  cases hgn : g'.edges.length with
  | zero => omega
  | succ m => rw [List.range_succ_eq_map]; rfl

/-! ## The claims -/

/-- C5: `global_efficiency` computes exactly the formula of the claim:
the sum of `1/d(i,j)` over ordered pairs of distinct vertices joined by a
finite path, divided by `V(V-1)`, with self-pairs and unreachable pairs
skipped entirely, and efficiency exactly 0 for graphs with fewer than two
vertices. -/
theorem global_efficiency_matches_spec (g : Graph) :
    global_efficiency g = global_efficiency_spec g ∧
    (g.n < 2 → global_efficiency g = 0) := by
  constructor
  · unfold global_efficiency global_efficiency_spec
    by_cases h : g.n < 2
    · simp [h]
    · simp only [if_neg h]
      congr 1
      congr 1
      refine List.flatMap_congr ?_
      intro v _
      refine List.filterMap_congr ?_
      intro j _
      by_cases hij : v = j
      · subst hij
        simp [dist_self g v]
      · rw [if_neg hij]
        cases hd : dist g v j with
        | none => simp
        | some d =>
            cases d with
            | zero => exact absurd hd (dist_ne_zero_of_ne g hij)
            | succ d => simp
  · intro h
    simp [global_efficiency, h]

theorem global_efficiency_matches_spec_witness :
    global_efficiency oneVertexGraph = global_efficiency_spec oneVertexGraph ∧
    global_efficiency oneVertexGraph = 0 :=
  ⟨(global_efficiency_matches_spec oneVertexGraph).1,
   (global_efficiency_matches_spec oneVertexGraph).2 (by decide)⟩

/-- C10: `NetworkAnalysis.pagerank` discards its `weight` argument — for
every graph and every weight selector it returns exactly the ranking of
the unweighted (`weight=None`) invocation of the underlying PageRank. -/
theorem networkAnalysis_pagerank_ignores_weight (g : Graph) (w : Option Unit) :
    NetworkAnalysis.pagerank g w = NetworkAnalysis.pagerank g none ∧
    NetworkAnalysis.pagerank g w = pagerank g none :=
  ⟨rfl, rfl⟩

/-- C6 counterexample: on a one-vertex graph `degree_centrality` divides
by `vcount() - 1 = 0` and raises `ZeroDivisionError` (`none`); in
particular it does not return the all-zero centrality `some [(0, 0)]`
that the claim asserts. -/
theorem degree_centrality_one_vertex_raises :
    degree_centrality oneVertexGraph = none ∧
    degree_centrality oneVertexGraph ≠ some [(0, 0)] := by
  have h : degree_centrality oneVertexGraph = none := by
    norm_num [degree_centrality, oneVertexGraph, traverseOption, pydiv, degree,
      List.range_succ]
  exact ⟨h, by rw [h]; simp⟩

/-- C6 amended: for `V ≥ 2` (third part: whenever the call returns) each
vertex scores its raw degree divided by `V - 1`; the empty graph returns
the empty mapping; but a graph with exactly one vertex raises
`ZeroDivisionError` instead of returning centrality 0. -/
theorem degree_centrality_amended (g : Graph) :
    (g.n = 0 → degree_centrality g = some []) ∧
    (g.n = 1 → degree_centrality g = none) ∧
    (∀ out v, degree_centrality g = some out → v < g.n →
      (v, (degree g v : ℚ) / ((g.n : ℚ) - 1)) ∈ out) := by
  have hnone : g.n = 1 → degree_centrality g = none := by
    intro h
    have h0 : (0 : ℕ) ∈ List.range g.n := by simp [h]
    have hf : (fun v : ℕ =>
        (pydiv (degree g v : ℚ) ((g.n : ℚ) - 1)).map (fun c => (v, c))) 0 = none := by
      simp [pydiv, h]
    unfold degree_centrality
    rw [traverseOption_none _ h0 hf]
    rfl
  refine ⟨?_, hnone, ?_⟩
  · intro h
    simp [degree_centrality, h, traverseOption, sortDesc]
  · intro out v hout hv
    rcases eq_or_ne g.n 1 with h1 | h1
    · rw [hnone h1] at hout
      exact absurd hout (by simp)
    · have hden : ((g.n : ℚ) - 1) ≠ 0 := by
        intro hz
        exact h1 (Nat.cast_eq_one.mp (sub_eq_zero.mp hz))
      have hsome := traverseOption_eq_map
        (fun v : ℕ => (pydiv (degree g v : ℚ) ((g.n : ℚ) - 1)).map (fun c => (v, c)))
        (fun v : ℕ => (v, (degree g v : ℚ) / ((g.n : ℚ) - 1)))
        (List.range g.n)
        (by intro a _; simp [pydiv, hden])
      unfold degree_centrality at hout
      rw [hsome] at hout
      have hout' : sortDesc ((List.range g.n).map
          (fun v : ℕ => (v, (degree g v : ℚ) / ((g.n : ℚ) - 1)))) = out := by
        simpa using hout
      rw [← hout']
      exact mem_sortDesc.mpr
        (List.mem_map.mpr ⟨v, List.mem_range.mpr hv, rfl⟩)

theorem degree_centrality_amended_witness :
    degree_centrality emptyGraph = some [] ∧
    degree_centrality oneVertexGraph = none ∧
    (0, (degree twoVertexGraph 0 : ℚ) / ((twoVertexGraph.n : ℚ) - 1)) ∈ [((0 : ℕ), (1 : ℚ)), (1, 1)] := by
  have h2 : degree_centrality twoVertexGraph = some [((0 : ℕ), (1 : ℚ)), (1, 1)] := by
    norm_num [degree_centrality, twoVertexGraph, traverseOption, pydiv, degree,
      List.range_succ, sortDesc, insertDesc]
  exact ⟨(degree_centrality_amended emptyGraph).1 rfl,
    (degree_centrality_amended oneVertexGraph).2.1 rfl,
    (degree_centrality_amended twoVertexGraph).2.2 _ 0 h2 (by decide)⟩

/-- C7 counterexample: on a two-vertex graph the normalizer
`2 / ((V-1)(V-2))` divides by zero and `betweenness_centrality` raises
(`none`), instead of returning the all-zero centrality the claim
asserts. -/
theorem betweenness_centrality_two_vertex_raises :
    betweenness_centrality twoVertexGraph = none ∧
    betweenness_centrality twoVertexGraph ≠ some [(0, 0), (1, 0)] := by
  have h : betweenness_centrality twoVertexGraph = none := by
    norm_num [betweenness_centrality, pydiv, twoVertexGraph]
  exact ⟨h, by rw [h]; simp⟩

/-- C7 amended: there is no guard on the normalizer — for `V ∈ {1, 2}`
the division by `(V-1)(V-2) = 0` raises `ZeroDivisionError` instead of
returning all-zero centralities; the empty graph returns the empty
mapping (vacuously all-zero, the denominator being `(−1)(−2) = 2`), and
for `V ≥ 3` the normalizer is nonzero, so no division by zero occurs and
the call returns. -/
theorem betweenness_centrality_amended (g : Graph) :
    (g.n = 0 → betweenness_centrality g = some []) ∧
    (g.n = 1 ∨ g.n = 2 → betweenness_centrality g = none) ∧
    (3 ≤ g.n → (betweenness_centrality g).isSome = true) := by
  refine ⟨?_, ?_, ?_⟩
  · intro h
    norm_num [betweenness_centrality, pydiv, h, sortDesc]
  · rintro (h | h) <;> norm_num [betweenness_centrality, pydiv, h]
  · intro h
    have hq : (3 : ℚ) ≤ (g.n : ℚ) := by exact_mod_cast h
    have hne : (((g.n : ℚ) - 1) * ((g.n : ℚ) - 2)) ≠ 0 := by nlinarith
    simp [betweenness_centrality, pydiv, hne]

theorem betweenness_centrality_amended_witness :
    betweenness_centrality emptyGraph = some [] ∧
    betweenness_centrality twoVertexGraph = none ∧
    (betweenness_centrality pathGraph3).isSome = true :=
  ⟨(betweenness_centrality_amended emptyGraph).1 rfl,
   (betweenness_centrality_amended twoVertexGraph).2.1 (Or.inr rfl),
   (betweenness_centrality_amended pathGraph3).2.2 (by decide)⟩

/-- C8: `closeness_centrality` gives every vertex `v` the score
`(R-1) / S`, `R` the number of vertices reachable from `v` and `S` the
sum of the finite shortest-path distances from `v` (unreachable vertices
contribute nothing); a vertex that reaches no other vertex scores `0`. -/
theorem closeness_centrality_matches_spec (g : Graph) (v : Nat) (hv : v < g.n) :
    (v, closenessSpecScore g v) ∈ closeness_centrality g ∧
    ((∀ u, u < g.n → u ≠ v → dist g v u = none) →
      (v, (0 : ℚ)) ∈ closeness_centrality g) := by
  have hmem : (v, closenessScore g v) ∈ closeness_centrality g := by
    unfold closeness_centrality
    exact mem_sortDesc.mpr (List.mem_map.mpr ⟨v, List.mem_range.mpr hv, rfl⟩)
  constructor
  · rw [← closenessScore_eq_spec]
    exact hmem
  · intro hiso
    have h0 : closenessScore g v = 0 := by
      unfold closenessScore
      rw [if_pos ((closeness_sum_zero_iff g v).mpr
        (fun u hu hne => hiso u (List.mem_range.mp hu) hne))]
    rw [← h0]
    exact hmem

theorem closeness_centrality_matches_spec_witness :
    (0, closenessSpecScore pathGraph3 0) ∈ closeness_centrality pathGraph3 ∧
    (0, (0 : ℚ)) ∈ closeness_centrality isolatedGraph :=
  ⟨(closeness_centrality_matches_spec pathGraph3 0 (by decide)).1,
   (closeness_centrality_matches_spec isolatedGraph 0 (by decide)).2 (by decide)⟩

/-- C1: for every graph and every integer attack budget `n`, each of the
four dismantling methods (node/edge centrality attack, node/edge random
attack) clamps `n` into `[1, count of removable elements]` without
rejecting it, performs exactly that many removals (the final graph has
exactly `count - clamped` elements left and the removal log has length
`clamped`), and returns largest-component, second-largest-component and
efficiency series of length `clamped + 1` with the pre-attack baselines
at index 0.  The centrality variants are quantified over any ranking
method that returns a nonempty ranking headed by a valid element, exactly
as the Python methods are parametric in `centrality_method`; the random
variants over any draw stream. -/
theorem attack_clamp_and_series (g : Graph) (n : ℤ)
    (hnames : g.names.length = g.n)
    (hedges : ∀ e ∈ g.edges, e.1 < g.n ∧ e.2.1 < g.n)
    (method emethod : Graph → Option (List (Nat × ℚ)))
    (hm : ∀ g', 0 < g'.n →
      ∃ bc v s, method g' = some bc ∧ bc.head? = some (v, s) ∧ v < g'.n)
    (hem : ∀ g', 0 < g'.edges.length →
      ∃ bc i s, emethod g' = some bc ∧ bc.head? = some (i, s) ∧ i < g'.edges.length)
    (picks : Nat → Nat) :
    (0 < g.n →
      1 ≤ clampBudget g.n n ∧ clampBudget g.n n ≤ g.n ∧
      ∃ tr, node_iterative_centrality_attack g n method = some tr ∧
        tr.removed.length = clampBudget g.n n ∧
        tr.graph.n = g.n - clampBudget g.n n ∧
        tr.lcc.length = clampBudget g.n n + 1 ∧
        tr.slcc.length = clampBudget g.n n + 1 ∧
        tr.eff.length = clampBudget g.n n + 1 ∧
        tr.lcc.head? = some (largest_connected_component g) ∧
        tr.slcc.head? = some (second_largest_connected_component g) ∧
        tr.eff.head? = some (global_efficiency g)) ∧
    (0 < g.n →
      ∃ tr, random_attack g n picks = some tr ∧
        tr.removed.length = clampBudget g.n n ∧
        tr.graph.n = g.n - clampBudget g.n n ∧
        tr.lcc.length = clampBudget g.n n + 1 ∧
        tr.slcc.length = clampBudget g.n n + 1 ∧
        tr.eff.length = clampBudget g.n n + 1 ∧
        tr.lcc.head? = some (largest_connected_component g) ∧
        tr.slcc.head? = some (second_largest_connected_component g) ∧
        tr.eff.head? = some (global_efficiency g)) ∧
    (0 < g.edges.length →
      1 ≤ clampBudget g.edges.length n ∧
      clampBudget g.edges.length n ≤ g.edges.length ∧
      ∃ tr, edge_iterative_centrality_attack g n emethod = some tr ∧
        tr.removed.length = clampBudget g.edges.length n ∧
        tr.graph.edges.length = g.edges.length - clampBudget g.edges.length n ∧
        tr.lcc.length = clampBudget g.edges.length n + 1 ∧
        tr.slcc.length = clampBudget g.edges.length n + 1 ∧
        tr.eff.length = clampBudget g.edges.length n + 1 ∧
        tr.lcc.head? = some (largest_connected_component g) ∧
        tr.slcc.head? = some (second_largest_connected_component g) ∧
        tr.eff.head? = some (global_efficiency g)) ∧
    (0 < g.edges.length →
      ∃ tr, edge_random_attack g n picks = some tr ∧
        tr.removed.length = clampBudget g.edges.length n ∧
        tr.graph.edges.length = g.edges.length - clampBudget g.edges.length n ∧
        tr.lcc.length = clampBudget g.edges.length n + 1 ∧
        tr.slcc.length = clampBudget g.edges.length n + 1 ∧
        tr.eff.length = clampBudget g.edges.length n + 1 ∧
        tr.lcc.head? = some (largest_connected_component g) ∧
        tr.slcc.head? = some (second_largest_connected_component g) ∧
        tr.eff.head? = some (global_efficiency g)) := by
  refine ⟨?_, ?_, ?_, ?_⟩
  · intro hn
    obtain ⟨hb1, hb2⟩ := clampBudget_bounds g.n n hn
    obtain ⟨tr, htr, hr, hlcc, hslcc, heff, _, hμ, _⟩ :=
      attackLoop_total (nodeStep method) (fun g' => g'.n)
        (fun g' => g'.names.length = g'.n)
        (nodeStep_total method hm) (clampBudget g.n n) 0 g hnames hb2
    refine ⟨hb1, hb2, ⟨tr.graph, tr.removed,
        largest_connected_component g :: tr.lcc,
        second_largest_connected_component g :: tr.slcc,
        global_efficiency g :: tr.eff, tr.cent⟩,
      ?_, hr, hμ, by simp [hlcc], by simp [hslcc], by simp [heff], rfl, rfl, rfl⟩
    unfold node_iterative_centrality_attack
    rw [htr]
    rfl
  · intro hn
    obtain ⟨hb1, hb2⟩ := clampBudget_bounds g.n n hn
    obtain ⟨tr, htr, hr, hlcc, hslcc, heff, _, hμ, _⟩ :=
      attackLoop_total (randStep picks) (fun g' => g'.n)
        (fun g' => g'.names.length = g'.n)
        (randStep_total picks) (clampBudget g.n n) 0 g hnames hb2
    refine ⟨⟨tr.graph, tr.removed,
        largest_connected_component g :: tr.lcc,
        second_largest_connected_component g :: tr.slcc,
        global_efficiency g :: tr.eff, []⟩,
      ?_, hr, hμ, by simp [hlcc], by simp [hslcc], by simp [heff], rfl, rfl, rfl⟩
    unfold random_attack
    rw [htr]
    rfl
  · intro hn
    obtain ⟨hb1, hb2⟩ := clampBudget_bounds g.edges.length n hn
    obtain ⟨tr, htr, hr, hlcc, hslcc, heff, _, hμ, _⟩ :=
      attackLoop_total (edgeStep emethod) (fun g' => g'.edges.length)
        (fun g' => g'.names.length = g'.n ∧ ∀ e ∈ g'.edges, e.1 < g'.n ∧ e.2.1 < g'.n)
        (edgeStep_total emethod hem) (clampBudget g.edges.length n) 0 g
        ⟨hnames, hedges⟩ hb2
    refine ⟨hb1, hb2, ⟨tr.graph, tr.removed,
        largest_connected_component g :: tr.lcc,
        second_largest_connected_component g :: tr.slcc,
        global_efficiency g :: tr.eff, tr.cent⟩,
      ?_, hr, hμ, by simp [hlcc], by simp [hslcc], by simp [heff], rfl, rfl, rfl⟩
    unfold edge_iterative_centrality_attack
    rw [htr]
    rfl
  · intro hn
    obtain ⟨hb1, hb2⟩ := clampBudget_bounds g.edges.length n hn
    obtain ⟨tr, htr, hr, hlcc, hslcc, heff, _, hμ, _⟩ :=
      attackLoop_total (edgeRandStep picks) (fun g' => g'.edges.length)
        (fun g' => g'.names.length = g'.n ∧ ∀ e ∈ g'.edges, e.1 < g'.n ∧ e.2.1 < g'.n)
        (edgeRandStep_total picks) (clampBudget g.edges.length n) 0 g
        ⟨hnames, hedges⟩ hb2
    refine ⟨⟨tr.graph, tr.removed,
        largest_connected_component g :: tr.lcc,
        second_largest_connected_component g :: tr.slcc,
        global_efficiency g :: tr.eff, []⟩,
      ?_, hr, hμ, by simp [hlcc], by simp [hslcc], by simp [heff], rfl, rfl, rfl⟩
    unfold edge_random_attack
    rw [htr]
    rfl

theorem attack_clamp_and_series_witness :
    clampBudget pathGraph3.n 10 = 3 ∧
    (node_iterative_centrality_attack pathGraph3 10 constMethod).map
      (fun tr => (tr.removed.length, tr.lcc.length, tr.slcc.length, tr.eff.length)) =
      some (3, 4, 4, 4) ∧
    (edge_random_attack pathGraph3 10 (fun _ => 0)).map
      (fun tr => (tr.removed.length, tr.graph.edges.length, tr.eff.length)) =
      some (2, 0, 3) := by
  have hc : clampBudget pathGraph3.n 10 = 3 := by decide
  have hce : clampBudget pathGraph3.edges.length 10 = 2 := by decide
  have h := attack_clamp_and_series pathGraph3 10 (by decide) (by decide)
    constMethod constEdgeMethod constMethod_head constEdgeMethod_head (fun _ => 0)
  obtain ⟨_, _, ⟨tr, htr, hr, _, hlcc, hslcc, heff, _, _, _⟩⟩ := h.1 (by decide)
  obtain ⟨tre, htre, hre, hgre, _, _, hee, _, _, _⟩ := h.2.2.2 (by decide)
  refine ⟨hc, ?_, ?_⟩
  · rw [htr]
    simp [hr, hlcc, hslcc, heff, hc]
  · rw [htre]
    simp [hre, hgre, hee, hce]
    rfl

/-- C2 exhibit: on the 3-vertex path the attack budget 2 passes the clamp
unchanged (it is capped by `vcount() = 3`, not by the number of
articulation points — the graph has a single one), and the run then
raises instead of completing its steps: the first iteration's
`ap[0]["name"]` subscripts an integer vertex ID (`TypeError`); even a
hypothetical vertex-record reading would fail at `ap[1]` (`IndexError`),
since the clamped budget exceeds the articulation-point count. -/
theorem articulation_attack_raises_on_path3 :
    articulation_points pathGraph3 = [1] ∧
    clampBudget pathGraph3.n 2 = 2 ∧
    articulation_point_targeted_attack pathGraph3 2 = none :=
  ⟨by decide, by decide, by decide⟩

/-- C3: the articulation points are computed exactly once, on the initial
graph — but no step ever removes or records one of them.  `ap[i]` is a
plain integer vertex ID, so the first iteration's `ap[i]["name"]` raises
`TypeError` on every graph with at least one vertex (with no articulation
points at all, `ap[0]` raises `IndexError` first); the attack never
reaches its `delete_vertices` call, so the claimed removal in discovery
order with stable name-based identity never happens. -/
theorem articulation_attack_always_raises (g : Graph) (n : ℤ) (hn : 0 < g.n) :
    articulation_point_targeted_attack g n = none := by
  obtain ⟨h1, _⟩ := clampBudget_bounds g.n n hn
  obtain ⟨k, hk⟩ : ∃ k, clampBudget g.n n = k + 1 :=
    ⟨clampBudget g.n n - 1, by omega⟩
  have hstep : apStep (articulation_points g) 0 g = none := by
    cases hap : articulation_points g with
    | nil => simp [apStep, hap]
    | cons a as => simp [apStep, hap, intSubscriptName]
  unfold articulation_point_targeted_attack
  rw [hk]
  simp only [attackLoop, hstep]
  rfl

/-- On the 4-vertex path — articulation points the vertices named "1" and
"2" — already a 1-step run raises instead of recording "1". -/
theorem articulation_attack_always_raises_witness :
    (articulation_points pathGraph4).map (fun v => pathGraph4.names.getD v "") = ["1", "2"] ∧
    articulation_point_targeted_attack pathGraph4 1 = none :=
  ⟨by decide, articulation_attack_always_raises pathGraph4 1 (by decide)⟩

/-- C9: every attack method mutates only the private deep copy obtained
from `get_graph` at the start: after any number of mutation steps (each
of the five methods' loop bodies is an instance of `step`), the caller's
graph in heap cell `r` — the entire `Graph` value: vertex count, edge
list and name attributes — is unchanged, while the fresh working cell
holds the result of running the steps on a copy of that value. -/
theorem attack_mutates_only_copy (step : Nat → Graph → Graph) (k : Nat)
    (s : List Graph) (r : Nat) (hr : r < s.length) :
    (runAttackOnHeap step k s r).1.getD r default = s.getD r default ∧
    (runAttackOnHeap step k s r).1.getD (runAttackOnHeap step k s r).2 default
      = stepFold step k 0 (s.getD r default) := by
  have hne : r ≠ s.length := Nat.ne_of_lt hr
  constructor
  · unfold runAttackOnHeap copyRef
    rw [mutateLoop_frame step k 0 _ _ _ hne, List.getD_eq_getElem?_getD,
      List.getD_eq_getElem?_getD, List.getElem?_append_left hr]
  · unfold runAttackOnHeap copyRef
    rw [mutateLoop_run step k 0 _ _ (by rw [List.length_append]; simp)]
    congr 1
    rw [List.getD_eq_getElem?_getD, List.getElem?_concat_length]
    rfl

theorem attack_mutates_only_copy_witness :
    (runAttackOnHeap (fun _ g' => (deleteVertex g' 0).getD g') 2 [pathGraph3] 0).1.getD 0 default
      = [pathGraph3].getD 0 default ∧
    (runAttackOnHeap (fun _ g' => (deleteVertex g' 0).getD g') 2 [pathGraph3] 0).1.getD
        (runAttackOnHeap (fun _ g' => (deleteVertex g' 0).getD g') 2 [pathGraph3] 0).2 default
      = stepFold (fun _ g' => (deleteVertex g' 0).getD g') 2 0 ([pathGraph3].getD 0 default) :=
  attack_mutates_only_copy (fun _ g' => (deleteVertex g' 0).getD g') 2 [pathGraph3] 0
    (by decide)

/-- C4: every centrality ranking (degree, eigenvector, betweenness,
edge-betweenness, closeness, pagerank) is returned sorted by score
descending, with equal scores keeping their original insertion-index
order (`RankOrder` states exactly this pair of properties); and the
dismantling simulator removes exactly the first element of the returned
ranking: with any caller-supplied method, the attack's step deletes the
head of the ranking of the current graph and records its name and score. -/
theorem rankings_sorted_desc_stable (g : Graph) :
    (∀ out, degree_centrality g = some out → out.Pairwise RankOrder) ∧
    (eigenvector_centrality g).Pairwise RankOrder ∧
    (∀ out, betweenness_centrality g = some out → out.Pairwise RankOrder) ∧
    (∀ out, edge_betweenness_centrality g = some out → out.Pairwise RankOrder) ∧
    (closeness_centrality g).Pairwise RankOrder ∧
    (∀ w, (pagerank g w).Pairwise RankOrder) ∧
    (∀ method bc v s nm g2,
      method g = some bc → bc.head? = some (v, s) →
      g.names[v]? = some nm → deleteVertex g v = some g2 →
      ∃ tr, node_iterative_centrality_attack g 1 method = some tr ∧
        tr.removed = [nm] ∧ tr.cent = [s] ∧ tr.graph = g2) := by
  refine ⟨?_, ?_, ?_, ?_, ?_, ?_, ?_⟩
  · intro out hout
    rcases eq_or_ne g.n 1 with h1 | h1
    · rw [degree_centrality, traverseOption_none
        (fun v : ℕ => (pydiv (degree g v : ℚ) ((g.n : ℚ) - 1)).map (fun c => (v, c)))
        (show (0 : ℕ) ∈ List.range g.n by simp [h1])
        (by simp [pydiv, h1])] at hout
      cases hout
    · rw [degree_centrality_eq h1] at hout
      obtain rfl := Option.some.inj hout
      exact sortDesc_enum_pairwise _ _
  · exact sortDesc_enum_pairwise _ _
  · intro out hout
    obtain ⟨c, rfl⟩ := betweenness_centrality_eq_some hout
    exact sortDesc_enum_pairwise _ _
  · intro out hout
    obtain ⟨c, rfl⟩ := edge_betweenness_centrality_eq_some hout
    exact sortDesc_enum_pairwise _ _
  · exact sortDesc_enum_pairwise _ _
  · intro w
    exact sortDesc_enum_pairwise _ _
  · intro method bc v s nm g2 hm hh hnm hdel
    have hv : v < g.n := by
      by_contra hge
      unfold deleteVertex at hdel
      rw [if_neg hge] at hdel
      cases hdel
    have hn : 0 < g.n := Nat.lt_of_le_of_lt (Nat.zero_le v) hv
    have hstep : nodeStep method 0 g = some (g2, nm, s) := by
      simp [nodeStep, hm, hh, hnm, hdel]
    unfold node_iterative_centrality_attack
    rw [clampBudget_one hn]
    simp only [attackLoop, hstep]
    exact ⟨_, rfl, rfl, rfl, rfl⟩

theorem rankings_sorted_desc_stable_witness :
    ([((0 : ℕ), (1 : ℚ)), (1, 1)]).Pairwise RankOrder ∧
    ([((1 : ℕ), (1 : ℚ)), (0, 0), (2, 0)]).Pairwise RankOrder ∧
    ([((0 : ℕ), (1 : ℚ))]).Pairwise RankOrder ∧
    (node_iterative_centrality_attack pathGraph3 1 constMethod).map (fun tr => tr.removed)
      = some ["0"] := by
  have hdeg : degree_centrality twoVertexGraph = some [(0, 1), (1, 1)] := by
    norm_num [degree_centrality, twoVertexGraph, traverseOption, pydiv, degree,
      List.range_succ, sortDesc, insertDesc]
  have hbet : betweenness_centrality pathGraph3 = some [(1, 1), (0, 0), (2, 0)] := by
    have s01 : sigma pathGraph3 0 1 = 1 := by decide
    have s02 : sigma pathGraph3 0 2 = 1 := by decide
    have s10 : sigma pathGraph3 1 0 = 1 := by decide
    have s12 : sigma pathGraph3 1 2 = 1 := by decide
    have s20 : sigma pathGraph3 2 0 = 1 := by decide
    have s21 : sigma pathGraph3 2 1 = 1 := by decide
    have t102 : sigmaThrough pathGraph3 0 2 1 = 1 := by decide
    have t120 : sigmaThrough pathGraph3 2 0 1 = 1 := by decide
    have t012 : sigmaThrough pathGraph3 1 2 0 = 0 := by decide
    have t021 : sigmaThrough pathGraph3 2 1 0 = 0 := by decide
    have t201 : sigmaThrough pathGraph3 0 1 2 = 0 := by decide
    have t210 : sigmaThrough pathGraph3 1 0 2 = 0 := by decide
    have hn : pathGraph3.n = 3 := rfl
    norm_num [betweenness_centrality, pydiv, betweennessRaw, sortDesc, insertDesc,
      List.range_succ, List.filterMap_cons, List.filterMap_nil, List.sum_cons, List.sum_nil,
      List.sum_append, hn, s01, s02, s10, s12, s20, s21,
      t102, t120, t012, t021, t201, t210]
  have hedge : edge_betweenness_centrality twoVertexGraph = some [(0, 1)] := by
    have s01 : sigma twoVertexGraph 0 1 = 1 := by decide
    have s10 : sigma twoVertexGraph 1 0 = 1 := by decide
    have e0 : twoVertexGraph.edges.getD 0 (0, 0, 0) = (0, 1, 1) := by decide
    have u0101 : sigmaThroughEdge twoVertexGraph 0 1 (twoVertexGraph.edges[0].1)
        (twoVertexGraph.edges[0].2.1) = 1 := by decide
    have u0110 : sigmaThroughEdge twoVertexGraph 0 1 (twoVertexGraph.edges[0].2.1)
        (twoVertexGraph.edges[0].1) = 0 := by decide
    have u1001 : sigmaThroughEdge twoVertexGraph 1 0 (twoVertexGraph.edges[0].1)
        (twoVertexGraph.edges[0].2.1) = 0 := by decide
    have u1010 : sigmaThroughEdge twoVertexGraph 1 0 (twoVertexGraph.edges[0].2.1)
        (twoVertexGraph.edges[0].1) = 1 := by decide
    have hn : twoVertexGraph.n = 2 := rfl
    have hel : twoVertexGraph.edges.length = 1 := rfl
    norm_num [edge_betweenness_centrality, pydiv, edgeBetweennessRaw, sortDesc, insertDesc,
      List.range_succ, List.filterMap_cons, List.filterMap_nil, List.sum_cons, List.sum_nil,
      List.sum_append, hn, hel, e0, s01, s10, u0101, u0110, u1001, u1010]
  refine ⟨(rankings_sorted_desc_stable twoVertexGraph).1 _ hdeg,
    (rankings_sorted_desc_stable pathGraph3).2.2.1 _ hbet,
    (rankings_sorted_desc_stable twoVertexGraph).2.2.2.1 _ hedge, ?_⟩
  obtain ⟨tr, htr, hrem, _, _⟩ :=
    (rankings_sorted_desc_stable pathGraph3).2.2.2.2.2.2 constMethod
      [(0, 0), (1, 0), (2, 0)] 0 0 "0" ⟨2, [(0, 1, 1)], ["1", "2"]⟩
      (by decide) (by decide) (by decide) (by decide)
  rw [htr]
  simp [hrem]

/-- The underlying PageRank model genuinely depends on the weight
selector (already its first power-iteration round does), so the wrapper
theorem above is not an artefact of a weight-blind embedding. -/
theorem pagerank_weight_sensitive :
    prStep skewGraph true (List.replicate skewGraph.n ((skewGraph.n : ℚ))⁻¹) ≠
    prStep skewGraph false (List.replicate skewGraph.n ((skewGraph.n : ℚ))⁻¹) := by
  norm_num [prStep, skewGraph, wnbors, wdegQ, damping, List.range_succ]

end Lnad
